import Mathlib

/-!
# Verification of `student_code.py` (directed-graph library)

Shallow embedding of the classes `SortableDigraph`, `TraversableDigraph`
and `DAG` from `src/student_code.py`, together with proofs about the
spec's claims.

Modelling choices:

* Python node identifiers may be any object, but the library only accepts
  strings (`add_node` raises `TypeError` otherwise).  We model identifiers
  by `PyVal`, covering strings and one representative non-string kind
  (integers) so that the type-validation paths can be exercised.
* `self.graph` is a Python `dict` mapping a node to its inner `dict` of
  `target ↦ weight` entries.  Python dicts preserve insertion order,
  update a present key in place, and append an absent key at the end;
  we model them by association lists with `alookup` / `aset` implementing
  exactly that discipline.  Edge weights (arbitrary Python objects,
  default `None`) are modelled by `Option Int`.
* Methods that can raise are embedded as functions returning
  `Option Err × Graph`: the error raised (if any) together with the state
  of `self.graph` when the call returns or the exception escapes.
-/

set_option autoImplicit false

namespace StudentCode

/-- A Python value used as a node identifier: a string, or a
representative non-string value (an int). -/
inductive PyVal where
  | str (s : String)
  | int (n : Int)
deriving DecidableEq, Repr

/-- The exceptions raised by `student_code.py`: `TypeError` from
`add_node` (line 14) and the `ValueError` raised by `DAG.add_edge`
(lines 103–105), which carries the rejected `(source, target)` pair. -/
inductive Err where
  | typeError
  | cycleError (source target : PyVal)
deriving DecidableEq, Repr

/-- `isinstance(node_name, str)`. -/
def isStr : PyVal → Bool
  | .str _ => true
  | .int _ => false

/-- Inner adjacency dict of one node: `target ↦ weight` in insertion
order. -/
abbrev Adj := List (PyVal × Option Int)

/-- `self.graph`: node ↦ adjacency dict, in insertion order. -/
abbrev Graph := List (PyVal × Adj)

/-- Python dict lookup `d[k]` / `d.get(k)`: first entry with key `k`. -/
def alookup {β : Type} (k : PyVal) : List (PyVal × β) → Option β
  | [] => none
  | (a, b) :: rest => if a = k then some b else alookup k rest

/-- Python dict assignment `d[k] = v`: overwrite in place when the key is
present, append at the end otherwise. -/
def aset {β : Type} (k : PyVal) (v : β) : List (PyVal × β) → List (PyVal × β)
  | [] => [(k, v)]
  | (a, b) :: rest => if a = k then (k, v) :: rest else (a, b) :: aset k v rest

/-- Python `k in d` on a dict. -/
def dmem {β : Type} (k : PyVal) (d : List (PyVal × β)) : Bool :=
  (alookup k d).isSome

/-- `self.graph.get(node, {})`. -/
def getAdj (g : Graph) (n : PyVal) : Adj :=
  (alookup n g).getD []

/-- `get_nodes` (line 18): `list(self.graph.keys())`. -/
def get_nodes (g : Graph) : List PyVal :=
  g.map Prod.fst

/-- `SortableDigraph.add_node` (lines 11–16): raise `TypeError` on a
non-string, otherwise register the node if absent.  Returns the raised
error (if any) and the resulting graph. -/
def add_node (g : Graph) (node_name : PyVal) : Option Err × Graph :=
  if isStr node_name then
    if dmem node_name g then (none, g) else (none, g ++ [(node_name, [])])
  else (some .typeError, g)

/-- `SortableDigraph.add_edge` (lines 22–26): `add_node(source)`,
`add_node(target)`, then `self.graph[source][target] = edge_weight`.
A raised `TypeError` escapes with the graph as mutated so far. -/
def sd_add_edge (g : Graph) (source target : PyVal) (edge_weight : Option Int) :
    Option Err × Graph :=
  match add_node g source with
  | (some e, g') => (some e, g')
  | (none, g1) =>
    match add_node g1 target with
    | (some e, g') => (some e, g')
    | (none, g2) => (none, aset source (aset target edge_weight (getAdj g2 source)) g2)

/-- `get_children` (lines 28–30): `list(self.graph.get(node_name, {}).keys())`. -/
def get_children (g : Graph) (node_name : PyVal) : List PyVal :=
  (getAdj g node_name).map Prod.fst

/-- The order Python's `sorted` uses on our identifiers.  Graphs built
through the API only contain strings, where this is the usual
lexicographic string order; the cross-kind cases (which raise in
Python 3 and are unreachable here) are fixed arbitrarily. -/
def pyLe (a b : PyVal) : Bool :=
  match a, b with
  | .str x, .str y => decide (x ≤ y)
  | .int x, .int y => decide (x ≤ y)
  | .int _, .str _ => true
  | .str _, .int _ => false

/-- Insert into a `pyLe`-sorted list, keeping it sorted. -/
def insertSorted (x : PyVal) : List PyVal → List PyVal
  | [] => [x]
  | y :: ys => if pyLe x y then x :: y :: ys else y :: insertSorted x ys

/-- The sorting performed by Python's `sorted` (insertion sort produces
the same ascending order). -/
def pysort : List PyVal → List PyVal
  | [] => []
  | x :: xs => insertSorted x (pysort xs)

/-- `successors` (lines 32–34): `sorted(list(self.graph.get(node_name, {}).keys()))`. -/
def successors (g : Graph) (node_name : PyVal) : List PyVal :=
  pysort (get_children g node_name)

/-- The list comprehension in `predecessors` (lines 38–39):
`[src for src, neighbors in self.graph.items() if node_name in neighbors]`. -/
def predecessorsRaw (g : Graph) (node_name : PyVal) : List PyVal :=
  (g.filter (fun p => dmem node_name p.2)).map Prod.fst

/-- `predecessors` (lines 36–40): the sorted comprehension. -/
def predecessors (g : Graph) (node_name : PyVal) : List PyVal :=
  pysort (predecessorsRaw g node_name)

/-- Number of `(source, target)` entries over all adjacency dicts whose
target is `v`: the value `in_degree[v]` holds after the counting loops of
`top_sort` (lines 44–47). -/
def countIn (g : Graph) (v : PyVal) : Nat :=
  (g.map (fun p => p.2.countP (fun q => decide (q.1 = v)))).sum

/-- Pointwise function update, modelling `in_degree[k] = v`. -/
def updFn (f : PyVal → Int) (k : PyVal) (v : Int) : PyVal → Int :=
  fun x => if x = k then v else f x

/-- The inner loop of `top_sort` (lines 55–58): for each neighbor of the
popped node, decrement its in-degree and append it to the work-list when
the in-degree reaches zero.  The work-list is stored with its Python
*tail* first (Python `pop()` takes the last element, `append` adds at
the end; here pop is the head and append is cons). -/
def processChildren (indeg : PyVal → Int) (queue : List PyVal) :
    Adj → (PyVal → Int) × List PyVal
  | [] => (indeg, queue)
  | (v, _) :: rest =>
    let indeg1 := updFn indeg v (indeg v - 1)
    let queue1 := if indeg1 v = 0 then v :: queue else queue
    processChildren indeg1 queue1 rest

/-- The `while queue` loop of `top_sort` (lines 52–58).  The loop always
terminates before the fuel runs out (each iteration appends one distinct
node of the graph to the result; see the invariant proofs below), so the
fuel is set to the node count. -/
def kahnLoop (g : Graph) : Nat → (PyVal → Int) → List PyVal → List PyVal → List PyVal
  | _, _, [], sorted_nodes => sorted_nodes
  | 0, _, _ :: _, sorted_nodes => sorted_nodes
  | fuel + 1, indeg, node :: queue, sorted_nodes =>
    let s := processChildren indeg queue (getAdj g node)
    kahnLoop g fuel s.1 s.2 (sorted_nodes ++ [node])

/-- `top_sort` (lines 42–59), Kahn's algorithm with the work-list used
as a stack.  The initial work-list comprehension is in key order, so in
the tail-first representation it is the reverse of the zero-in-degree
key list. -/
def top_sort (g : Graph) : List PyVal :=
  kahnLoop g g.length (fun v => (countIn g v : Int))
    ((get_nodes g).filter (fun u => decide (countIn g u = 0))).reverse []

/-- Total number of edge entries in the graph. -/
def totalEdges (g : Graph) : Nat :=
  (g.map (fun p => p.2.length)).sum

/-- Fuel that over-approximates the number of loop iterations of any of
the traversal loops: each node's children are pushed at most once, so at
most `1 + totalEdges` pops occur from a one-element start; the node
count is added for slack in the potential argument. -/
def travFuel (g : Graph) : Nat :=
  g.length + totalEdges g + 1

/-- The `while stack` loop of `TraversableDigraph.dfs` (lines 74–80):
pop a node, skip it when visited, otherwise yield it and push its
children.  The stack is stored with its Python tail first, so
`stack.extend(children)` prepends the reversed child list.  `fuel` is an
upper bound on loop iterations; the stabilisation lemmas below show the
loop empties its stack before the fuel does. -/
def dfs_loop (g : Graph) : Nat → List PyVal → List PyVal → List PyVal
  | 0, _, _ => []
  | _ + 1, [], _ => []
  | fuel + 1, node :: stack, visited =>
    if node ∈ visited then dfs_loop g fuel stack visited
    else node :: dfs_loop g fuel ((get_children g node).reverse ++ stack) (node :: visited)

/-- `dfs(start_node)` (lines 69–80), as the finite list of yielded
nodes. -/
def dfs (g : Graph) (start_node : PyVal) : List PyVal :=
  dfs_loop g (travFuel g) [start_node] []

/-- The `while queue` loop of `TraversableDigraph.bfs` (lines 87–94):
`popleft` is the head and the children are appended at the end. -/
def bfs_loop (g : Graph) : Nat → List PyVal → List PyVal → List PyVal
  | 0, _, _ => []
  | _ + 1, [], _ => []
  | fuel + 1, node :: queue, visited =>
    if node ∈ visited then bfs_loop g fuel queue visited
    else node :: bfs_loop g fuel (queue ++ get_children g node) (node :: visited)

/-- `bfs(start_node)` (lines 82–94), as the finite list of yielded
nodes. -/
def bfs (g : Graph) (start_node : PyVal) : List PyVal :=
  bfs_loop g (travFuel g) [start_node] []

/-- The `while stack` loop of `DAG.path_exists` (lines 116–123): pop a
node (tail-first representation again), return `True` on the target,
otherwise push the unvisited node's children. -/
def path_exists_loop (g : Graph) (target_node : PyVal) :
    Nat → List PyVal → List PyVal → Bool
  | 0, _, _ => false
  | _ + 1, [], _ => false
  | fuel + 1, node :: stack, visited =>
    if node = target_node then true
    else if node ∈ visited then path_exists_loop g target_node fuel stack visited
    else path_exists_loop g target_node fuel
      ((get_children g node).reverse ++ stack) (node :: visited)

/-- `DAG.path_exists` (lines 108–123): absent start node means no path;
otherwise run the DFS loop from `[start_node]`. -/
def path_exists (g : Graph) (start_node target_node : PyVal) : Bool :=
  if dmem start_node g then
    path_exists_loop g target_node (travFuel g) [start_node] []
  else false

/-- `DAG.add_edge` (lines 100–106): reject (raising the cycle error)
when `path_exists(target, source)`, else delegate to
`SortableDigraph.add_edge`. -/
def dag_add_edge (g : Graph) (source target : PyVal) (edge_weight : Option Int) :
    Option Err × Graph :=
  if path_exists g target source then (some (.cycleError source target), g)
  else sd_add_edge g source target edge_weight

/-- Well-formedness maintained by the Python dict representation and the
store's insertion discipline: outer keys are distinct, each inner dict
has distinct keys, and every edge target is itself a node. -/
def WF (g : Graph) : Prop :=
  (get_nodes g).Nodup ∧
    ∀ p ∈ g, (p.2.map Prod.fst).Nodup ∧ ∀ q ∈ p.2, q.1 ∈ get_nodes g

instance : DecidablePred WF := fun g => by
  unfold WF; infer_instance

/-- The edge relation of the stored graph, as a Boolean:
`target in self.graph.get(source, {})`. -/
def edgeB (g : Graph) (u v : PyVal) : Bool :=
  dmem v (getAdj g u)

/-- The edge relation as a `Prop`. -/
def EdgeRel (g : Graph) (u v : PyVal) : Prop :=
  edgeB g u v = true

instance (g : Graph) (u v : PyVal) : Decidable (EdgeRel g u v) := by
  unfold EdgeRel
  infer_instance

/-- No node reaches itself through one or more edges. -/
def Acyclic (g : Graph) : Prop :=
  ∀ n, ¬ Relation.TransGen (EdgeRel g) n n

/-- Number of in-edges of `v` whose source has not yet been appended to
`sorted_nodes`: the value `in_degree[v]` holds at each boundary of the
`while` loop of `top_sort`. -/
def pending (g : Graph) (sorted_nodes : List PyVal) (v : PyVal) : Nat :=
  ((predecessorsRaw g v).filter (fun u => !decide (u ∈ sorted_nodes))).length

/-- Loop invariant of the `while` loop of `top_sort` (the work-list in
tail-first representation): the output so far is a duplicate-free list
of nodes closed under "all parents already output" in order, the
in-degree dict holds the pending in-degree of every node, and the
work-list holds exactly the unprocessed nodes of pending in-degree 0. -/
structure KahnInv (g : Graph) (indeg : PyVal → Int)
    (queue sorted_nodes : List PyVal) : Prop where
  sorted_nodup : sorted_nodes.Nodup
  sorted_sub : ∀ v ∈ sorted_nodes, v ∈ get_nodes g
  queue_nodup : queue.Nodup
  indeg_eq : ∀ v, indeg v = (pending g sorted_nodes v : Int)
  queue_mem : ∀ v, v ∈ queue ↔
    v ∈ get_nodes g ∧ v ∉ sorted_nodes ∧ pending g sorted_nodes v = 0
  order : ∀ u v, EdgeRel g u v → v ∈ sorted_nodes →
    List.Sublist [u, v] sorted_nodes

/-- What holds of the list `top_sort` returns: duplicate-free nodes of
the graph, edges into the output come from earlier output positions, and
every node left out has an in-edge from another left-out node. -/
def KahnOut (g : Graph) (out : List PyVal) : Prop :=
  out.Nodup ∧ (∀ v ∈ out, v ∈ get_nodes g) ∧
    (∀ u v, EdgeRel g u v → v ∈ out → List.Sublist [u, v] out) ∧
    (∀ v ∈ get_nodes g, v ∉ out → ∃ u, EdgeRel g u v ∧ u ∉ out)

/-! ## State-passing forms of the query methods

Each Python method reads and possibly writes `self.graph`; the
state-passing form returns the method's value together with the graph
after the call.  Inspecting lines 18–59, 69–94 and 108–123 of the source,
none of the query methods ever assigns into `self.graph` or into an
inner adjacency dict (`top_sort` mutates only its local `in_degree`
dict, the traversals only their local `visited`/`stack`/`queue`), so
their state-passing embeddings return the graph unchanged; only
`add_node` and `add_edge` (lines 11–16, 22–26, 100–106) write to it. -/

/-- `get_nodes` with explicit state. -/
def get_nodes_op (g : Graph) : List PyVal × Graph := (get_nodes g, g)

/-- `get_children` with explicit state. -/
def get_children_op (g : Graph) (n : PyVal) : List PyVal × Graph := (get_children g n, g)

/-- `successors` with explicit state. -/
def successors_op (g : Graph) (n : PyVal) : List PyVal × Graph := (successors g n, g)

/-- `predecessors` with explicit state. -/
def predecessors_op (g : Graph) (n : PyVal) : List PyVal × Graph := (predecessors g n, g)

/-- `top_sort` with explicit state. -/
def top_sort_op (g : Graph) : List PyVal × Graph := (top_sort g, g)

/-- `path_exists` with explicit state. -/
def path_exists_op (g : Graph) (s t : PyVal) : Bool × Graph := (path_exists g s t, g)

/-- Fully consumed `dfs` generator with explicit state. -/
def dfs_op (g : Graph) (s : PyVal) : List PyVal × Graph := (dfs g s, g)

/-- Fully consumed `bfs` generator with explicit state. -/
def bfs_op (g : Graph) (s : PyVal) : List PyVal × Graph := (bfs g s, g)

/-- `Σ (1 + out-degree)` over the nodes not yet visited: the
termination measure of the traversal loops. -/
def potential (g : Graph) (visited : List PyVal) : Nat :=
  ((g.filter (fun p => !decide (p.1 ∈ visited))).map (fun p => p.2.length + 1)).sum

/-- The chain `A → B → C` as stored by the library (a concrete graph
used in witnesses). -/
def gChain : Graph :=
  [(.str "A", [(.str "B", none)]), (.str "B", [(.str "C", none)]), (.str "C", [])]

/-- A two-cycle `A → B → A`, as the plain store (no guard) can build it
(a concrete graph used in witnesses). -/
def gCycle : Graph :=
  [(.str "A", [(.str "B", none)]), (.str "B", [(.str "A", none)])]

/-! ## Basic association-list lemmas -/

theorem alookup_isSome_iff {β : Type} (k : PyVal) (l : List (PyVal × β)) :
    (alookup k l).isSome = true ↔ k ∈ l.map Prod.fst := by
  induction l with
  | nil => simp [alookup]
  | cons p rest ih =>
    obtain ⟨a, b⟩ := p
    by_cases h : a = k
    · subst h; simp [alookup]
    · have h' : ¬ k = a := fun hk => h hk.symm
      simp [alookup, h, h', ih]

theorem dmem_iff {β : Type} (k : PyVal) (l : List (PyVal × β)) :
    dmem k l = true ↔ k ∈ l.map Prod.fst := by
  simp [dmem, alookup_isSome_iff]

theorem alookup_eq_some_mem {β : Type} (k : PyVal) (l : List (PyVal × β)) (b : β)
    (h : alookup k l = some b) : (k, b) ∈ l := by
  induction l with
  | nil => simp [alookup] at h
  | cons p rest ih =>
    obtain ⟨a, c⟩ := p
    by_cases ha : a = k
    · subst ha
      simp [alookup] at h
      simp [h]
    · simp [alookup, ha] at h
      exact List.mem_cons_of_mem _ (ih h)

/-- The result error of `add_node` is `none` or the `TypeError`. -/
theorem add_node_fst (g : Graph) (n : PyVal) :
    (add_node g n).1 = none ∨ (add_node g n).1 = some Err.typeError := by
  unfold add_node
  split
  · split <;> simp
  · simp

/-- `add_node` on a string raises nothing. -/
theorem add_node_ok (g : Graph) (n : PyVal) (h : isStr n = true) :
    (add_node g n).1 = none := by
  unfold add_node
  rw [if_pos h]
  split <;> simp

/-- `SortableDigraph.add_edge` never raises the cycle error. -/
theorem sd_add_edge_no_cycle (g : Graph) (s t : PyVal) (w : Option Int)
    (a b : PyVal) : (sd_add_edge g s t w).1 ≠ some (Err.cycleError a b) := by
  unfold sd_add_edge
  split
  next e g' heq =>
    rcases add_node_fst g s with h | h <;> rw [heq] at h <;> simp at h <;> simp [h]
  next g1 heq =>
    split
    next e g' heq2 =>
      rcases add_node_fst g1 t with h | h <;> rw [heq2] at h <;> simp at h <;> simp [h]
    next g2 heq2 => simp

/-! ## Ordering lemmas for Python's `sorted` -/

theorem pyLe_total (a b : PyVal) : pyLe a b = true ∨ pyLe b a = true := by
  cases a <;> cases b <;> simp [pyLe] <;> exact le_total _ _

theorem pyLe_trans (a b c : PyVal) (h1 : pyLe a b = true) (h2 : pyLe b c = true) :
    pyLe a c = true := by
  cases a <;> cases b <;> cases c <;> simp [pyLe] at h1 h2 ⊢ <;> exact le_trans h1 h2

theorem insertSorted_perm (x : PyVal) (l : List PyVal) :
    (insertSorted x l).Perm (x :: l) := by
  induction l with
  | nil => simp [insertSorted]
  | cons y ys ih =>
    unfold insertSorted
    split
    · exact List.Perm.refl _
    · exact ((ih.cons y).trans (List.Perm.swap x y ys))

theorem insertSorted_pairwise (x : PyVal) (l : List PyVal)
    (h : l.Pairwise (fun a b => pyLe a b = true)) :
    (insertSorted x l).Pairwise (fun a b => pyLe a b = true) := by
  induction l with
  | nil => simp [insertSorted]
  | cons y ys ih =>
    rcases List.pairwise_cons.mp h with ⟨hy, hys⟩
    unfold insertSorted
    split
    next hxy =>
      refine List.Pairwise.cons ?_ h
      intro b hb
      rcases List.mem_cons.mp hb with hb | hb
      · exact hb ▸ hxy
      · exact pyLe_trans x y b hxy (hy b hb)
    next hxy =>
      have hyx : pyLe y x = true := (pyLe_total x y).resolve_left hxy
      refine List.Pairwise.cons ?_ (ih hys)
      intro b hb
      rcases List.mem_cons.mp ((insertSorted_perm x ys).mem_iff.mp hb) with hb | hb
      · exact hb ▸ hyx
      · exact hy b hb

theorem pysort_pairwise (l : List PyVal) :
    (pysort l).Pairwise (fun a b => pyLe a b = true) := by
  induction l with
  | nil => simp [pysort]
  | cons x xs ih => exact insertSorted_pairwise x (pysort xs) ih

theorem pysort_perm (l : List PyVal) : (pysort l).Perm l := by
  induction l with
  | nil => exact List.Perm.refl _
  | cons x xs ih => exact (insertSorted_perm x (pysort xs)).trans (ih.cons x)

/-! ## Dict-update lemmas -/

theorem alookup_append {β : Type} (k : PyVal) (l1 l2 : List (PyVal × β)) :
    alookup k (l1 ++ l2) =
      match alookup k l1 with
      | some b => some b
      | none => alookup k l2 := by
  induction l1 with
  | nil => simp [alookup]
  | cons p rest ih =>
    obtain ⟨a, b⟩ := p
    by_cases h : a = k <;> simp [alookup, h, ih]

theorem alookup_aset_self {β : Type} (k : PyVal) (v : β) (l : List (PyVal × β)) :
    alookup k (aset k v l) = some v := by
  induction l with
  | nil => simp [aset, alookup]
  | cons p rest ih =>
    obtain ⟨a, b⟩ := p
    by_cases h : a = k <;> simp [aset, alookup, h, ih]

theorem map_fst_aset {β : Type} (k : PyVal) (v : β) (l : List (PyVal × β)) :
    (aset k v l).map Prod.fst =
      if k ∈ l.map Prod.fst then l.map Prod.fst else l.map Prod.fst ++ [k] := by
  induction l with
  | nil => simp [aset]
  | cons p rest ih =>
    obtain ⟨a, b⟩ := p
    by_cases h : a = k
    · subst h; simp [aset]
    · have h' : ¬ k = a := fun hk => h hk.symm
      simp only [aset, if_neg h, List.map_cons, ih]
      by_cases hm : k ∈ rest.map Prod.fst <;> simp [hm, h']

/-- `add_node` never changes any adjacency dict (a fresh node gets an
empty one). -/
theorem getAdj_add_node (g : Graph) (n m : PyVal) :
    getAdj (add_node g n).2 m = getAdj g m := by
  unfold add_node
  split
  · split
    · rfl
    next habs =>
      unfold getAdj
      rw [alookup_append]
      rcases h : alookup m g with _ | adj
      · by_cases hnm : n = m
        · subst hnm
          simp [alookup, h]
        · simp [alookup, hnm, h]
      · simp [h]
  · rfl

/-- Reduction of a fully successful `SortableDigraph.add_edge`. -/
theorem sd_add_edge_ok (g : Graph) (s t : PyVal) (w : Option Int)
    (hs : isStr s = true) (ht : isStr t = true) :
    sd_add_edge g s t w =
      (none, aset s (aset t w (getAdj (add_node (add_node g s).2 t).2 s))
        (add_node (add_node g s).2 t).2) := by
  unfold sd_add_edge
  split
  next e g' heq =>
    have := add_node_ok g s hs
    rw [heq] at this
    simp at this
  next g1 heq =>
    split
    next e g' heq2 =>
      have := add_node_ok g1 t ht
      rw [heq2] at this
      simp at this
    next g2 heq2 => simp [heq, heq2]

/-- Under well-formedness every adjacency dict has distinct keys. -/
theorem getAdj_keys_nodup (g : Graph) (n : PyVal) (h : WF g) :
    ((getAdj g n).map Prod.fst).Nodup := by
  unfold getAdj
  rcases halo : alookup n g with _ | adj
  · simp
  · simpa using (h.2 (n, adj) (alookup_eq_some_mem n g adj halo)).1

theorem getAdj_aset_self (k : PyVal) (v : Adj) (l : Graph) :
    getAdj (aset k v l) k = v := by
  unfold getAdj
  rw [alookup_aset_self]
  rfl

theorem predecessorsRaw_nodup (g : Graph) (n : PyVal) (h : WF g) :
    (predecessorsRaw g n).Nodup := by
  have hsub : List.Sublist ((g.filter fun p => dmem n p.2).map Prod.fst)
      (g.map Prod.fst) :=
    (List.filter_sublist g).map Prod.fst
  exact List.Nodup.sublist hsub h.1

/-! ## Termination of the traversal loops

The loops of `dfs`, `bfs` and `path_exists` pop one element per
iteration and push the children of a node only on its first visit, so
`|worklist| + Σ_{unvisited node n} (1 + |children n|)` strictly
decreases every iteration.  `potential` is the summation part; the
stabilisation lemmas show that once the fuel dominates this measure the
result no longer depends on it — the Python loop terminates with
exactly that output. -/

theorem potential_cons_le (g : Graph) (visited : List PyVal) (node : PyVal) :
    potential g (node :: visited) ≤ potential g visited := by
  induction g with
  | nil => simp [potential]
  | cons p rest ih =>
    obtain ⟨a, b⟩ := p
    unfold potential at ih ⊢
    simp only [List.filter_cons]
    split_ifs with hc1 hc2 hc2
    · simp only [List.map_cons, List.sum_cons]
      omega
    · simp at hc1 hc2
      exact absurd hc2 hc1.2
    · simp only [List.map_cons, List.sum_cons]
      omega
    · exact ih

theorem potential_cons_of_mem (g : Graph) (visited : List PyVal) (node : PyVal)
    (hg : node ∈ get_nodes g) (hv : node ∉ visited) :
    potential g (node :: visited) + ((getAdj g node).length + 1) ≤
      potential g visited := by
  induction g with
  | nil => simp [get_nodes] at hg
  | cons p rest ih =>
    obtain ⟨a, b⟩ := p
    by_cases h3 : a = node
    · subst h3
      have hadj : getAdj ((a, b) :: rest) a = b := by simp [getAdj, alookup]
      rw [hadj]
      have hle := potential_cons_le rest visited a
      unfold potential at hle ⊢
      simp only [List.filter_cons]
      split_ifs with hc1 hc2 hc2
      · simp at hc1
      · simp at hc1
      · simp only [List.map_cons, List.sum_cons]
        omega
      · simp at hc2
        exact absurd hc2 hv
    · have hg' : node ∈ get_nodes rest := by
        simp [get_nodes] at hg ⊢
        rcases hg with h | h
        · exact absurd h.symm h3
        · exact h
      have hadj : getAdj ((a, b) :: rest) node = getAdj rest node := by
        simp [getAdj, alookup, h3]
      rw [hadj]
      have ihr := ih hg'
      unfold potential at ihr ⊢
      simp only [List.filter_cons]
      split_ifs with hc1 hc2 hc2
      · simp only [List.map_cons, List.sum_cons]
        omega
      · simp at hc1 hc2
        exact absurd hc2 hc1.2
      · simp only [List.map_cons, List.sum_cons]
        omega
      · exact ihr

theorem potential_nil_eq (g : Graph) : potential g [] = totalEdges g + g.length := by
  induction g with
  | nil => simp [potential, totalEdges]
  | cons p rest ih =>
    obtain ⟨a, b⟩ := p
    unfold potential totalEdges at ih ⊢
    simp [List.filter_cons]
    omega

theorem dfs_loop_stable (g : Graph) : ∀ fuel stack visited,
    stack.length + potential g visited ≤ fuel →
    dfs_loop g (fuel + 1) stack visited = dfs_loop g fuel stack visited := by
  intro fuel
  induction fuel with
  | zero =>
    intro stack visited h
    cases stack with
    | nil => simp [dfs_loop]
    | cons node rest => simp at h
  | succ f ih =>
    intro stack visited h
    cases stack with
    | nil => simp [dfs_loop]
    | cons node rest =>
      by_cases hv : node ∈ visited
      · simp only [dfs_loop, if_pos hv]
        refine ih rest visited ?_
        simp at h
        omega
      · simp only [dfs_loop, if_neg hv]
        congr 1
        refine ih _ _ ?_
        simp at h ⊢
        by_cases hg : node ∈ get_nodes g
        · have hpot := potential_cons_of_mem g visited node hg hv
          have hlen : (get_children g node).length = (getAdj g node).length := by
            simp [get_children]
          omega
        · have hnone : alookup node g = none := by
            cases halo : alookup node g with
            | none => rfl
            | some adj =>
              exact absurd ((alookup_isSome_iff node g).mp (by simp [halo])) hg
          have hch : get_children g node = [] := by
            simp [get_children, getAdj, hnone]
          have hpot := potential_cons_le g visited node
          simp [hch]
          omega

theorem bfs_loop_stable (g : Graph) : ∀ fuel queue visited,
    queue.length + potential g visited ≤ fuel →
    bfs_loop g (fuel + 1) queue visited = bfs_loop g fuel queue visited := by
  intro fuel
  induction fuel with
  | zero =>
    intro queue visited h
    cases queue with
    | nil => simp [bfs_loop]
    | cons node rest => simp at h
  | succ f ih =>
    intro queue visited h
    cases queue with
    | nil => simp [bfs_loop]
    | cons node rest =>
      by_cases hv : node ∈ visited
      · simp only [bfs_loop, if_pos hv]
        refine ih rest visited ?_
        simp at h
        omega
      · simp only [bfs_loop, if_neg hv]
        congr 1
        refine ih _ _ ?_
        simp at h ⊢
        by_cases hg : node ∈ get_nodes g
        · have hpot := potential_cons_of_mem g visited node hg hv
          have hlen : (get_children g node).length = (getAdj g node).length := by
            simp [get_children]
          omega
        · have hnone : alookup node g = none := by
            cases halo : alookup node g with
            | none => rfl
            | some adj =>
              exact absurd ((alookup_isSome_iff node g).mp (by simp [halo])) hg
          have hch : get_children g node = [] := by
            simp [get_children, getAdj, hnone]
          have hpot := potential_cons_le g visited node
          simp [hch]
          omega

theorem dfs_loop_stable_ge (g : Graph) (fuel k : Nat) (stack visited : List PyVal)
    (h : stack.length + potential g visited ≤ fuel) :
    dfs_loop g (fuel + k) stack visited = dfs_loop g fuel stack visited := by
  induction k with
  | zero => rfl
  | succ n ih =>
    calc dfs_loop g (fuel + (n + 1)) stack visited
        = dfs_loop g ((fuel + n) + 1) stack visited := by ring_nf
      _ = dfs_loop g (fuel + n) stack visited :=
          dfs_loop_stable g (fuel + n) stack visited (le_trans h (Nat.le_add_right _ _))
      _ = dfs_loop g fuel stack visited := ih

theorem bfs_loop_stable_ge (g : Graph) (fuel k : Nat) (queue visited : List PyVal)
    (h : queue.length + potential g visited ≤ fuel) :
    bfs_loop g (fuel + k) queue visited = bfs_loop g fuel queue visited := by
  induction k with
  | zero => rfl
  | succ n ih =>
    calc bfs_loop g (fuel + (n + 1)) queue visited
        = bfs_loop g ((fuel + n) + 1) queue visited := by ring_nf
      _ = bfs_loop g (fuel + n) queue visited :=
          bfs_loop_stable g (fuel + n) queue visited (le_trans h (Nat.le_add_right _ _))
      _ = bfs_loop g fuel queue visited := ih

theorem dfs_loop_nodup (g : Graph) : ∀ fuel stack visited,
    (dfs_loop g fuel stack visited).Nodup ∧
      ∀ v ∈ dfs_loop g fuel stack visited, v ∉ visited := by
  intro fuel
  induction fuel with
  | zero => intro stack visited; simp [dfs_loop]
  | succ f ih =>
    intro stack visited
    cases stack with
    | nil => simp [dfs_loop]
    | cons node rest =>
      by_cases hv : node ∈ visited
      · simpa only [dfs_loop, if_pos hv] using ih rest visited
      · simp only [dfs_loop, if_neg hv]
        obtain ⟨hnd, hdisj⟩ := ih ((get_children g node).reverse ++ rest) (node :: visited)
        refine ⟨List.Nodup.cons (fun hmem => ?_) hnd, ?_⟩
        · exact hdisj node hmem (List.mem_cons_self _ _)
        · intro v hvmem
          rcases List.mem_cons.mp hvmem with h | h
          · exact h ▸ hv
          · intro hcon
            exact hdisj v h (List.mem_cons_of_mem _ hcon)

theorem bfs_loop_nodup (g : Graph) : ∀ fuel queue visited,
    (bfs_loop g fuel queue visited).Nodup ∧
      ∀ v ∈ bfs_loop g fuel queue visited, v ∉ visited := by
  intro fuel
  induction fuel with
  | zero => intro queue visited; simp [bfs_loop]
  | succ f ih =>
    intro queue visited
    cases queue with
    | nil => simp [bfs_loop]
    | cons node rest =>
      by_cases hv : node ∈ visited
      · simpa only [bfs_loop, if_pos hv] using ih rest visited
      · simp only [bfs_loop, if_neg hv]
        obtain ⟨hnd, hdisj⟩ := ih (rest ++ get_children g node) (node :: visited)
        refine ⟨List.Nodup.cons (fun hmem => ?_) hnd, ?_⟩
        · exact hdisj node hmem (List.mem_cons_self _ _)
        · intro v hvmem
          rcases List.mem_cons.mp hvmem with h | h
          · exact h ▸ hv
          · intro hcon
            exact hdisj v h (List.mem_cons_of_mem _ hcon)

/-! ## Claim C1 and C2: the self-loop hole in the acyclicity guard

`DAG.path_exists` (line 110) returns `False` whenever the start node is
absent, *before* the stack loop can pop the start node and match it
against the target.  Hence `add_edge(s, s)` on a `DAG` whose graph does
not yet contain `s` runs `path_exists(s, s) = False`, delegates to the
plain store, and records a self-loop — a cycle.  When `s` is already
present the loop does pop `s`, matches the target and rejects. -/

/-- C1: a single successful `add_edge("a", "a")` on an empty DAG leaves
the graph with `path_exists("a", "a")` true — the acyclicity invariant
claimed by the spec is violated by the code. -/
theorem dag_self_loop_slips_through :
    (dag_add_edge [] (.str "a") (.str "a") none).1 = none ∧
      (.str "a") ∈ get_nodes (dag_add_edge [] (.str "a") (.str "a") none).2 ∧
      path_exists (dag_add_edge [] (.str "a") (.str "a") none).2
        (.str "a") (.str "a") = true := by
  decide

/-- C2: `add_edge("x", "x")` on a DAG is accepted when `"x"` is absent
(no error raised, contradicting the claim) yet rejected with the cycle
error when `"x"` is already present. -/
theorem dag_self_loop_absent_accepted :
    (dag_add_edge [] (.str "x") (.str "x") none).1 = none ∧
      (dag_add_edge [(.str "x", [])] (.str "x") (.str "x") none).1 =
        some (Err.cycleError (.str "x") (.str "x")) := by
  decide

/-! ## Claim C3: strong exception safety of the cycle rejection -/

/-- C3: whenever `DAG.add_edge` raises the cycle error, the error names
the offending `(source, target)` pair and the graph is returned exactly
as it was — the reachability check (line 102) runs strictly before any
mutation. -/
theorem dag_add_edge_cycle_frame (g : Graph) (s t : PyVal) (w : Option Int)
    (a b : PyVal) (h : (dag_add_edge g s t w).1 = some (Err.cycleError a b)) :
    (dag_add_edge g s t w).2 = g ∧ a = s ∧ b = t := by
  unfold dag_add_edge at *
  by_cases hp : path_exists g t s = true
  · rw [if_pos hp] at h ⊢
    simp at h
    exact ⟨rfl, h.1.symm, h.2.symm⟩
  · rw [if_neg hp] at h
    exact absurd h (sd_add_edge_no_cycle g s t w a b)

/-- Witness for C3: on the chain `A → B → C`, `add_edge("C", "A")` is
rejected and `self.graph` (hence also `get_children("C")`) is untouched. -/
theorem dag_add_edge_cycle_frame_witness :
    (dag_add_edge gChain (.str "C") (.str "A") none).2 = gChain ∧
      get_children (dag_add_edge gChain (.str "C") (.str "A") none).2 (.str "C") = [] :=
  ⟨(dag_add_edge_cycle_frame gChain (.str "C") (.str "A") none
      (.str "C") (.str "A") (by decide)).1,
    by decide⟩

/-! ## Claim C4: eagerness of the type validation -/

/-- C4 counterexample: `add_edge("a", 5)` on an *empty* store raises the
`TypeError`, but the failed call leaves the node `"a"` behind —
`add_node(source)` has already mutated the graph when the target's type
check fires, so the claim's "graph exactly the same after the failed
call" is false for a valid source with an invalid target. -/
theorem sd_add_edge_bad_target_mutates :
    (sd_add_edge [] (.str "a") (.int 5) none).1 = some Err.typeError ∧
      (sd_add_edge [] (.str "a") (.int 5) none).2 ≠ [] := by
  decide

/-- C4 amended: `add_node` with a non-string raises before any mutation,
and so does `add_edge` with a non-string source; with a valid (string)
source and a non-string target, `add_edge` raises the `TypeError` with
no edge recorded and the target not added, but with the graph as
`add_node(source)` left it (the source node may have been newly
registered). -/
theorem type_validation_frame :
    (∀ g n, isStr n = false → add_node g n = (some Err.typeError, g)) ∧
      (∀ g s t w, isStr s = false → sd_add_edge g s t w = (some Err.typeError, g)) ∧
      (∀ g s t w, isStr s = true → isStr t = false →
        sd_add_edge g s t w = (some Err.typeError, (add_node g s).2)) := by
  refine ⟨?_, ?_, ?_⟩
  · intro g n h
    unfold add_node
    rw [if_neg (by simp [h])]
  · intro g s t w h
    have h1 : add_node g s = (some Err.typeError, g) := by
      unfold add_node; rw [if_neg (by simp [h])]
    unfold sd_add_edge
    split
    next e g' heq => rw [heq] at h1; simp at h1; simp [h1.1, h1.2]
    next g1 heq => rw [heq] at h1; simp at h1
  · intro g s t w hs ht
    unfold sd_add_edge
    split
    next e g' heq =>
      have := add_node_ok g s hs
      rw [heq] at this
      simp at this
    next g1 heq =>
      have h2 : add_node g1 t = (some Err.typeError, g1) := by
        unfold add_node; rw [if_neg (by simp [ht])]
      split
      next e g' heq2 =>
        rw [heq2] at h2
        simp at h2
        rw [heq]
        simp [h2.1, h2.2]
      next g2 heq2 =>
        rw [heq2] at h2
        simp at h2

/-- Witness for C4 amended, at concrete inputs: a rejected `add_node(7)`
leaves the store empty, and `add_edge("a", 5)` on the empty store leaves
exactly the graph `add_node("a")` produces. -/
theorem type_validation_frame_witness :
    add_node [] (.int 7) = (some Err.typeError, []) ∧
      sd_add_edge [] (.str "a") (.int 5) none =
        (some Err.typeError, (add_node [] (.str "a")).2) :=
  ⟨type_validation_frame.1 [] (.int 7) (by decide),
    type_validation_frame.2.2 [] (.str "a") (.int 5) none (by decide) (by decide)⟩

/-! ## Claim C7: absent start node means "no path", not an error -/

/-- C7: for every graph and identifiers `s`, `t` with `s` not a node of
the graph, `path_exists(s, t)` returns `False` (the guard at lines
110–111 fires; nothing is raised). -/
theorem path_exists_absent_start (g : Graph) (s t : PyVal)
    (h : s ∉ get_nodes g) : path_exists g s t = false := by
  unfold path_exists
  rw [if_neg]
  intro hm
  exact h ((dmem_iff s g).mp hm)

/-- Witness for C7: a start node absent from the chain graph. -/
theorem path_exists_absent_start_witness :
    path_exists gChain (.str "Q") (.str "A") = false :=
  path_exists_absent_start gChain (.str "Q") (.str "A") (by decide)

/-! ## Claim C8: both traversals terminate, cycles included -/

/-- C8: on any finite graph — cyclic or not — with the start node
present, both `dfs(start)` and `bfs(start)` terminate: every fuel bound
at least `travFuel g` yields the same finite output (the loop has
already emptied its work-list), and the visited-set check ensures no
node is yielded twice.  The well-formedness and start-presence
hypotheses state the claim's scope (over what Python graphs the raw
`self.graph[node]` indexing in the loops cannot raise `KeyError`). -/
theorem traversals_terminate (g : Graph) (start : PyVal) (hWF : WF g)
    (hs : start ∈ get_nodes g) :
    (∀ fuel, travFuel g ≤ fuel → dfs_loop g fuel [start] [] = dfs g start) ∧
      (∀ fuel, travFuel g ≤ fuel → bfs_loop g fuel [start] [] = bfs g start) ∧
      (dfs g start).Nodup ∧ (bfs g start).Nodup := by
  have hbound : (1 : Nat) + potential g [] ≤ travFuel g := by
    rw [potential_nil_eq]
    unfold travFuel
    omega
  refine ⟨?_, ?_, (dfs_loop_nodup g _ _ _).1, (bfs_loop_nodup g _ _ _).1⟩
  · intro fuel hf
    obtain ⟨k, hk⟩ := Nat.exists_eq_add_of_le hf
    subst hk
    unfold dfs
    exact dfs_loop_stable_ge g (travFuel g) k [start] [] (by simpa using hbound)
  · intro fuel hf
    obtain ⟨k, hk⟩ := Nat.exists_eq_add_of_le hf
    subst hk
    unfold bfs
    exact bfs_loop_stable_ge g (travFuel g) k [start] [] (by simpa using hbound)

/-- Witness for C8, on the two-cycle `A → B → A`: extra fuel changes
nothing and the traversals are duplicate-free. -/
theorem traversals_terminate_witness :
    WF gCycle ∧ (.str "A") ∈ get_nodes gCycle ∧
      dfs_loop gCycle (travFuel gCycle + 5) [.str "A"] [] = dfs gCycle (.str "A") ∧
      bfs_loop gCycle (travFuel gCycle + 5) [.str "A"] [] = bfs gCycle (.str "A") ∧
      (dfs gCycle (.str "A")).Nodup :=
  ⟨by decide, by decide,
    (traversals_terminate gCycle (.str "A") (by decide) (by decide)).1 _ (by decide),
    (traversals_terminate gCycle (.str "A") (by decide) (by decide)).2.1 _ (by decide),
    (traversals_terminate gCycle (.str "A") (by decide) (by decide)).2.2.1⟩

/-! ## Claim C10: ordering policy of the neighbor queries -/

/-- C10: `successors` and `predecessors` return ascending sorted lists
(in the order Python's `sorted` uses), without duplicates on any
well-formed store, while `get_children` reports out-neighbors in edge
insertion order: a newly inserted edge appends its target at the end of
`get_children(source)`, and re-inserting an existing pair (a weight
overwrite) leaves the order unchanged. -/
theorem neighbor_order :
    (∀ g n, (successors g n).Pairwise (fun a b => pyLe a b = true)) ∧
      (∀ g n, (predecessors g n).Pairwise (fun a b => pyLe a b = true)) ∧
      (∀ g n, WF g → (successors g n).Nodup ∧ (predecessors g n).Nodup) ∧
      (∀ g s t w, isStr s = true → isStr t = true →
        get_children (sd_add_edge g s t w).2 s =
          if t ∈ get_children g s then get_children g s
          else get_children g s ++ [t]) := by
  refine ⟨?_, ?_, ?_, ?_⟩
  · intro g n
    unfold successors
    exact pysort_pairwise _
  · intro g n
    unfold predecessors
    exact pysort_pairwise _
  · intro g n h
    constructor
    · unfold successors
      exact (pysort_perm _).nodup_iff.mpr (getAdj_keys_nodup g n h)
    · unfold predecessors
      exact (pysort_perm _).nodup_iff.mpr (predecessorsRaw_nodup g n h)
  · intro g s t w hs ht
    rw [sd_add_edge_ok g s t w hs ht]
    unfold get_children
    rw [getAdj_aset_self, map_fst_aset, getAdj_add_node, getAdj_add_node]

/-- Witness for C10 on concrete graphs: sorted duplicate-free neighbor
queries on the chain, and the append-at-end behaviour of a fresh edge
insertion. -/
theorem neighbor_order_witness :
    (successors gChain (.str "A")).Pairwise (fun a b => pyLe a b = true) ∧
      WF gChain ∧
      (successors gChain (.str "A")).Nodup ∧
      (predecessors gChain (.str "B")).Nodup ∧
      get_children (sd_add_edge gChain (.str "B") (.str "A") none).2 (.str "B") =
        (if (.str "A") ∈ get_children gChain (.str "B") then get_children gChain (.str "B")
          else get_children gChain (.str "B") ++ [(.str "A")]) :=
  ⟨neighbor_order.1 gChain (.str "A"), by decide,
    (neighbor_order.2.2.1 gChain (.str "A") (by decide)).1,
    (neighbor_order.2.2.1 gChain (.str "B") (by decide)).2,
    neighbor_order.2.2.2 gChain (.str "B") (.str "A") none (by decide) (by decide)⟩

/-! ## Claim C9: queries leave the adjacency mapping unchanged -/

/-- C9: every query and algorithm operation returns the graph exactly as
it received it — in the source none of them writes to `self.graph` —
while `add_node` and `add_edge` do mutate it (witnessed at a concrete
input each). -/
theorem queries_frame :
    (∀ g, (get_nodes_op g).2 = g) ∧
      (∀ g n, (get_children_op g n).2 = g) ∧
      (∀ g n, (successors_op g n).2 = g) ∧
      (∀ g n, (predecessors_op g n).2 = g) ∧
      (∀ g, (top_sort_op g).2 = g) ∧
      (∀ g s t, (path_exists_op g s t).2 = g) ∧
      (∀ g s, (dfs_op g s).2 = g) ∧
      (∀ g s, (bfs_op g s).2 = g) ∧
      (add_node [] (.str "a")).2 ≠ [] ∧
      (sd_add_edge [(.str "a", [])] (.str "a") (.str "b") none).2 ≠ [(.str "a", [])] := by
  refine ⟨fun _ => rfl, fun _ _ => rfl, fun _ _ => rfl, fun _ _ => rfl,
    fun _ => rfl, fun _ _ _ => rfl, fun _ _ => rfl, fun _ _ => rfl, ?_, ?_⟩
  · decide
  · decide

/-! ## Correctness of `top_sort` (Kahn's algorithm)

Support lemmas relating the in-degree bookkeeping of the code to the
`pending` count, followed by the loop invariant `KahnInv` and the final
characterisation `KahnOut`. -/

theorem alookup_of_mem_nodup {β : Type} (k : PyVal) (b : β) (l : List (PyVal × β))
    (h : (k, b) ∈ l) (hnd : (l.map Prod.fst).Nodup) : alookup k l = some b := by
  induction l with
  | nil => simp at h
  | cons p rest ih =>
    obtain ⟨a, c⟩ := p
    simp only [List.map_cons, List.nodup_cons] at hnd
    rcases List.mem_cons.mp h with he | hm
    · obtain ⟨h1, h2⟩ := Prod.mk.injEq .. ▸ he
      subst h1
      subst h2
      simp [alookup]
    · have hk : a ≠ k := by
        intro hak
        exact hnd.1 (hak ▸ List.mem_map.mpr ⟨(k, b), hm, rfl⟩)
      simp [alookup, hk, ih hm hnd.2]

theorem edge_source_mem (g : Graph) (u v : PyVal) (h : EdgeRel g u v) :
    u ∈ get_nodes g := by
  unfold EdgeRel edgeB getAdj at h
  rcases halo : alookup u g with _ | adj
  · rw [halo] at h
    simp [dmem, alookup] at h
  · exact (alookup_isSome_iff u g).mp (by simp [halo])

theorem edge_target_mem (g : Graph) (u v : PyVal) (hWF : WF g)
    (h : EdgeRel g u v) : v ∈ get_nodes g := by
  unfold EdgeRel edgeB getAdj at h
  rcases halo : alookup u g with _ | adj
  · rw [halo] at h
    simp [dmem, alookup] at h
  · rw [halo] at h
    simp only [Option.getD_some] at h
    obtain ⟨q, hq, hq1⟩ := List.mem_map.mp ((dmem_iff v adj).mp h)
    exact hq1 ▸ (hWF.2 (u, adj) (alookup_eq_some_mem u g adj halo)).2 q hq

theorem edgeRel_iff_child (g : Graph) (n v : PyVal) :
    EdgeRel g n v ↔ v ∈ get_children g n := by
  unfold EdgeRel edgeB get_children
  exact dmem_iff v (getAdj g n)

theorem edgeRel_iff_mem_raw (g : Graph) (hnd : (get_nodes g).Nodup) (u v : PyVal) :
    EdgeRel g u v ↔ u ∈ predecessorsRaw g v := by
  constructor
  · intro h
    unfold EdgeRel edgeB getAdj at h
    rcases halo : alookup u g with _ | adj
    · rw [halo] at h
      simp [dmem, alookup] at h
    · rw [halo] at h
      simp only [Option.getD_some] at h
      unfold predecessorsRaw
      exact List.mem_map.mpr
        ⟨(u, adj), List.mem_filter.mpr ⟨alookup_eq_some_mem u g adj halo, h⟩, rfl⟩
  · intro h
    unfold predecessorsRaw at h
    obtain ⟨⟨u', adj⟩, hmem, hfst⟩ := List.mem_map.mp h
    simp only at hfst
    subst hfst
    have hfil := List.mem_filter.mp hmem
    have halo : alookup u' g = some adj := alookup_of_mem_nodup u' adj g hfil.1 hnd
    unfold EdgeRel edgeB getAdj
    rw [halo]
    exact hfil.2

theorem countP_keys (adj : Adj) (hnd : (adj.map Prod.fst).Nodup) (v : PyVal) :
    adj.countP (fun q => decide (q.1 = v)) = if v ∈ adj.map Prod.fst then 1 else 0 := by
  induction adj with
  | nil => simp
  | cons q rest ih =>
    obtain ⟨w, x⟩ := q
    simp only [List.map_cons, List.nodup_cons] at hnd
    obtain ⟨hw, hrest⟩ := hnd
    rw [List.countP_cons]
    by_cases hv : w = v
    · subst hv
      have hzero : rest.countP (fun q => decide (q.1 = w)) = 0 := by
        rw [ih hrest]
        simp [hw]
      simp [hzero]
    · rw [ih hrest]
      have hv' : ¬ v = w := fun h => hv h.symm
      by_cases hvr : v ∈ List.map Prod.fst rest <;> simp [hvr, hv, hv']

theorem countIn_eq (g : Graph) (hin : ∀ p ∈ g, (p.2.map Prod.fst).Nodup) (v : PyVal) :
    countIn g v = (predecessorsRaw g v).length := by
  induction g with
  | nil => simp [countIn, predecessorsRaw]
  | cons p rest ih =>
    obtain ⟨a, adj⟩ := p
    have hadj := hin (a, adj) (List.mem_cons_self _ _)
    have ihr := ih (fun q hq => hin q (List.mem_cons_of_mem _ hq))
    unfold countIn predecessorsRaw at ihr ⊢
    simp only [List.map_cons, List.sum_cons, List.filter_cons]
    rw [countP_keys adj hadj v]
    by_cases hd : v ∈ adj.map Prod.fst
    · have hdm : dmem v adj = true := (dmem_iff v adj).mpr hd
      simp [hd, hdm, ihr]
      omega
    · have hdm : ¬ dmem v adj = true := fun h => hd ((dmem_iff v adj).mp h)
      simp [hd, hdm, ihr]

theorem pending_nil (g : Graph) (v : PyVal) :
    pending g [] v = (predecessorsRaw g v).length := by
  unfold pending
  rw [List.filter_eq_self.mpr]
  intro a _
  simp

theorem pending_eq_zero_iff (g : Graph) (sorted_nodes : List PyVal) (v : PyVal) :
    pending g sorted_nodes v = 0 ↔ ∀ u ∈ predecessorsRaw g v, u ∈ sorted_nodes := by
  unfold pending
  rw [List.length_eq_zero, List.filter_eq_nil]
  constructor
  · intro h u hu
    have := h u hu
    simpa using this
  · intro h u hu
    simp [h u hu]

theorem pending_pos (g : Graph) (sorted_nodes : List PyVal) (v node : PyVal)
    (hmem : node ∈ predecessorsRaw g v) (hns : node ∉ sorted_nodes) :
    0 < pending g sorted_nodes v := by
  unfold pending
  have hin : node ∈ (predecessorsRaw g v).filter (fun u => !decide (u ∈ sorted_nodes)) :=
    List.mem_filter.mpr ⟨hmem, by simp [hns]⟩
  exact List.length_pos.mpr (List.ne_nil_of_mem hin)

theorem length_filter_append_singleton (l : List PyVal) (S : List PyVal) (n : PyVal)
    (hnd : l.Nodup) (hns : n ∉ S) :
    (l.filter (fun u => !decide (u ∈ S))).length =
      (l.filter (fun u => !decide (u ∈ S ++ [n]))).length +
        (if n ∈ l then 1 else 0) := by
  induction l with
  | nil => simp
  | cons x rest ih =>
    obtain ⟨hx, hrest⟩ := List.nodup_cons.mp hnd
    have ihr := ih hrest
    simp only [List.filter_cons]
    by_cases hxn : x = n
    · subst hxn
      have c1 : (!decide (x ∈ S)) = true := by simp [hns]
      have c2 : ¬ ((!decide (x ∈ S ++ [x])) = true) := by simp
      rw [if_pos c1, if_neg c2]
      have hcong : rest.filter (fun u => !decide (u ∈ S ++ [x])) =
          rest.filter (fun u => !decide (u ∈ S)) := by
        apply List.filter_congr
        intro u hu
        have hux : u ≠ x := fun he => hx (he ▸ hu)
        simp [List.mem_append, hux]
      rw [hcong]
      simp
    · have hif : (if n ∈ x :: rest then (1 : Nat) else 0) =
          (if n ∈ rest then 1 else 0) := by
        have : ¬ n = x := fun h => hxn h.symm
        simp [List.mem_cons, this]
      by_cases hxS : x ∈ S
      · have c1 : ¬ ((!decide (x ∈ S)) = true) := by simp [hxS]
        have c2 : ¬ ((!decide (x ∈ S ++ [n])) = true) := by
          simp [List.mem_append, hxS]
        rw [if_neg c1, if_neg c2, ihr, hif]
      · have c1 : (!decide (x ∈ S)) = true := by simp [hxS]
        have c2 : (!decide (x ∈ S ++ [n])) = true := by
          simp [List.mem_append, hxS, hxn]
        rw [if_pos c1, if_pos c2]
        simp only [List.length_cons]
        rw [ihr, hif]
        omega

theorem pending_append (g : Graph) (sorted_nodes : List PyVal) (node v : PyVal)
    (hnd : (predecessorsRaw g v).Nodup) (hns : node ∉ sorted_nodes) :
    pending g sorted_nodes v =
      pending g (sorted_nodes ++ [node]) v +
        (if node ∈ predecessorsRaw g v then 1 else 0) := by
  unfold pending
  exact length_filter_append_singleton (predecessorsRaw g v) sorted_nodes node hnd hns

theorem processChildren_indeg (adj : Adj) :
    ∀ (indeg : PyVal → Int) (queue : List PyVal) (v : PyVal),
    (processChildren indeg queue adj).1 v =
      indeg v - adj.countP (fun q => decide (q.1 = v)) := by
  induction adj with
  | nil =>
    intro indeg queue v
    simp [processChildren]
  | cons q rest ih =>
    obtain ⟨w, x⟩ := q
    intro indeg queue v
    simp only [processChildren]
    rw [ih, List.countP_cons]
    by_cases hv : v = w
    · subst hv
      simp [updFn]
      omega
    · have hv' : ¬ w = v := fun h => hv h.symm
      simp [updFn, hv, hv']

theorem processChildren_queue (adj : Adj) :
    ∀ (indeg : PyVal → Int) (queue : List PyVal), (adj.map Prod.fst).Nodup →
    (processChildren indeg queue adj).2 =
      ((adj.map Prod.fst).filter (fun v => decide (indeg v = 1))).reverse ++ queue := by
  induction adj with
  | nil =>
    intro indeg queue _
    simp [processChildren]
  | cons q rest ih =>
    obtain ⟨w, x⟩ := q
    intro indeg queue hnd
    simp only [List.map_cons] at hnd
    obtain ⟨hw, hrest⟩ := List.nodup_cons.mp hnd
    simp only [processChildren]
    rw [ih _ _ hrest]
    have hcong : (rest.map Prod.fst).filter
          (fun v => decide (updFn indeg w (indeg w - 1) v = 1)) =
        (rest.map Prod.fst).filter (fun v => decide (indeg v = 1)) := by
      apply List.filter_congr
      intro u hu
      have huw : u ≠ w := fun he => hw (he ▸ hu)
      simp [updFn, huw]
    rw [hcong]
    simp only [List.map_cons, List.filter_cons]
    by_cases h0 : indeg w - 1 = 0
    · have h1 : indeg w = 1 := by omega
      rw [if_pos (show updFn indeg w (indeg w - 1) w = 0 by simp [updFn, h0]),
        if_pos (by simp [h1])]
      simp
    · have h1 : ¬ decide (indeg w = 1) = true := by simp; omega
      rw [if_neg (show ¬ updFn indeg w (indeg w - 1) w = 0 by simp [updFn, h0]),
        if_neg h1]

theorem nodup_subset_length_eq (l m : List PyVal) (hl : l.Nodup) (hm : m.Nodup)
    (hsub : ∀ x ∈ l, x ∈ m) (hlen : m.length ≤ l.length) : ∀ x ∈ m, x ∈ l := by
  have hsubF : l.toFinset ⊆ m.toFinset := by
    intro x hx
    exact List.mem_toFinset.mpr (hsub x (List.mem_toFinset.mp hx))
  have hcard : m.toFinset.card ≤ l.toFinset.card := by
    rw [List.toFinset_card_of_nodup hl, List.toFinset_card_of_nodup hm]
    exact hlen
  intro x hx
  have hxm : x ∈ m.toFinset := List.mem_toFinset.mpr hx
  rw [← Finset.eq_of_subset_of_card_le hsubF hcard] at hxm
  exact List.mem_toFinset.mp hxm

theorem kahnInv_init (g : Graph) (hWF : WF g) :
    KahnInv g (fun v => (countIn g v : Int))
      ((get_nodes g).filter (fun u => decide (countIn g u = 0))).reverse [] := by
  have hcnt : ∀ v, countIn g v = (predecessorsRaw g v).length :=
    fun v => countIn_eq g (fun p hp => (hWF.2 p hp).1) v
  refine ⟨List.nodup_nil, by simp, ?_, ?_, ?_, by simp⟩
  · exact List.nodup_reverse.mpr (List.Nodup.filter _ hWF.1)
  · intro v
    simp only [pending_nil, hcnt]
  · intro v
    simp [List.mem_reverse, List.mem_filter, pending_nil, hcnt]

theorem kahnInv_step (g : Graph) (hWF : WF g) (indeg : PyVal → Int)
    (queue sorted_nodes : List PyVal) (node : PyVal)
    (hInv : KahnInv g indeg (node :: queue) sorted_nodes) :
    KahnInv g (processChildren indeg queue (getAdj g node)).1
      (processChildren indeg queue (getAdj g node)).2
      (sorted_nodes ++ [node]) := by
  obtain ⟨hsnd, hssub, hqnd, hind, hqmem, hord⟩ := hInv
  obtain ⟨hnodeg, hnodes, hnode0⟩ := (hqmem node).mp (List.mem_cons_self _ _)
  have hnq : node ∉ queue := (List.nodup_cons.mp hqnd).1
  have hrawnd : ∀ v, (predecessorsRaw g v).Nodup :=
    fun v => predecessorsRaw_nodup g v hWF
  have hadjnd : ((getAdj g node).map Prod.fst).Nodup := getAdj_keys_nodup g node hWF
  have hkeys : (getAdj g node).map Prod.fst = get_children g node := rfl
  have hnodeparent : ∀ v, node ∈ predecessorsRaw g v ↔ v ∈ get_children g node := by
    intro v
    rw [← edgeRel_iff_mem_raw g hWF.1 node v, edgeRel_iff_child]
  have hparents : ∀ u, EdgeRel g u node → u ∈ sorted_nodes := by
    intro u hu
    exact (pending_eq_zero_iff g sorted_nodes node).mp hnode0 u
      ((edgeRel_iff_mem_raw g hWF.1 u node).mp hu)
  have hnotself : node ∉ get_children g node := by
    intro hc
    exact hnodes (hparents node ((edgeRel_iff_child g node node).mpr hc))
  have hpend : ∀ v, pending g sorted_nodes v =
      pending g (sorted_nodes ++ [node]) v +
        (if v ∈ get_children g node then 1 else 0) := by
    intro v
    rw [pending_append g sorted_nodes node v (hrawnd v) hnodes]
    by_cases hc : v ∈ get_children g node
    · rw [if_pos ((hnodeparent v).mpr hc), if_pos hc]
    · rw [if_neg (fun h => hc ((hnodeparent v).mp h)), if_neg hc]
  have hindeg : ∀ v, (processChildren indeg queue (getAdj g node)).1 v =
      (pending g (sorted_nodes ++ [node]) v : Int) := by
    intro v
    rw [processChildren_indeg, hind v, countP_keys _ hadjnd v, hkeys]
    have hp := hpend v
    by_cases hv : v ∈ get_children g node <;> simp only [hv, if_pos, if_neg,
      not_false_iff, if_true, if_false] <;> simp [hv] at hp ⊢ <;> omega
  have hchildpos : ∀ v ∈ get_children g node, 0 < pending g sorted_nodes v := by
    intro v hv
    exact pending_pos g sorted_nodes v node ((hnodeparent v).mpr hv) hnodes
  have hchildns : ∀ v ∈ get_children g node, v ∉ sorted_nodes := by
    intro v hv hvs
    have hsl := hord node v ((edgeRel_iff_child g node v).mpr hv) hvs
    exact hnodes (hsl.subset (by simp))
  have hq : (processChildren indeg queue (getAdj g node)).2 =
      ((get_children g node).filter (fun v => decide (indeg v = 1))).reverse ++ queue := by
    rw [processChildren_queue _ _ _ hadjnd, hkeys]
  refine ⟨?_, ?_, ?_, hindeg, ?_, ?_⟩
  · refine List.Nodup.append hsnd (List.nodup_singleton _) ?_
    intro a ha hb
    rw [List.mem_singleton] at hb
    subst hb
    exact hnodes ha
  · intro v hv
    rcases List.mem_append.mp hv with h | h
    · exact hssub v h
    · rw [List.mem_singleton] at h
      subst h
      exact hnodeg
  · rw [hq]
    refine List.Nodup.append ?_ hqnd.of_cons ?_
    · exact List.nodup_reverse.mpr (List.Nodup.filter _ (hkeys ▸ hadjnd))
    · intro a ha hb
      rw [List.mem_reverse, List.mem_filter] at ha
      have h1 : indeg a = 1 := by simpa using ha.2
      have h0 := ((hqmem a).mp (List.mem_cons_of_mem _ hb)).2.2
      rw [hind a] at h1
      omega
  · intro v
    rw [hq]
    constructor
    · intro hv
      rcases List.mem_append.mp hv with h | h
      · rw [List.mem_reverse, List.mem_filter] at h
        obtain ⟨hchild, hdeg⟩ := h
        have hdeg1 : indeg v = 1 := by simpa using hdeg
        rw [hind v] at hdeg1
        have hvg : v ∈ get_nodes g :=
          edge_target_mem g node v hWF ((edgeRel_iff_child g node v).mpr hchild)
        have hvns : v ∉ sorted_nodes := hchildns v hchild
        have hvnn : v ≠ node := fun he => hnotself (he ▸ hchild)
        refine ⟨hvg, ?_, ?_⟩
        · intro hvs
          rcases List.mem_append.mp hvs with h' | h'
          · exact hvns h'
          · exact hvnn (by simpa using h')
        · have hp := hpend v
          rw [if_pos hchild] at hp
          omega
      · obtain ⟨hvg, hvns, hv0⟩ := (hqmem v).mp (List.mem_cons_of_mem _ h)
        have hvnn : v ≠ node := fun he => hnq (he ▸ h)
        refine ⟨hvg, ?_, ?_⟩
        · intro hvs
          rcases List.mem_append.mp hvs with h' | h'
          · exact hvns h'
          · exact hvnn (by simpa using h')
        · have hp := hpend v
          by_cases hc : v ∈ get_children g node
          · exact absurd hv0 (by have := hchildpos v hc; omega)
          · rw [if_neg hc] at hp
            omega
    · rintro ⟨hvg, hvns', hv0'⟩
      have hvns : v ∉ sorted_nodes := fun h => hvns' (List.mem_append.mpr (Or.inl h))
      have hvnn : v ≠ node := fun he =>
        hvns' (List.mem_append.mpr (Or.inr (by simp [he])))
      by_cases hc : v ∈ get_children g node
      · apply List.mem_append.mpr
        left
        rw [List.mem_reverse, List.mem_filter]
        refine ⟨hc, ?_⟩
        have hp := hpend v
        rw [if_pos hc] at hp
        have hv1 : indeg v = 1 := by
          rw [hind v]
          omega
        simpa using hv1
      · apply List.mem_append.mpr
        right
        have hp := hpend v
        rw [if_neg hc] at hp
        have hv0 : pending g sorted_nodes v = 0 := by omega
        have hin : v ∈ node :: queue := (hqmem v).mpr ⟨hvg, hvns, hv0⟩
        rcases List.mem_cons.mp hin with he | hm
        · exact absurd he hvnn
        · exact hm
  · intro u v huv hvs
    rcases List.mem_append.mp hvs with h | h
    · exact (hord u v huv h).trans (List.sublist_append_left _ _)
    · rw [List.mem_singleton] at h
      subst h
      have hu : u ∈ sorted_nodes := hparents u huv
      exact (List.singleton_sublist.mpr hu).append (List.Sublist.refl [v])

theorem kahnOut_of_empty (g : Graph) (hWF : WF g) (indeg : PyVal → Int)
    (sorted_nodes : List PyVal) (hInv : KahnInv g indeg [] sorted_nodes) :
    KahnOut g sorted_nodes := by
  obtain ⟨hsnd, hssub, _, hind, hqmem, hord⟩ := hInv
  refine ⟨hsnd, hssub, hord, ?_⟩
  intro v hvg hvs
  have h0 : ¬ (pending g sorted_nodes v = 0) := by
    intro h0
    have := (hqmem v).mpr ⟨hvg, hvs, h0⟩
    simp at this
  have hnall : ¬ (∀ u ∈ predecessorsRaw g v, u ∈ sorted_nodes) :=
    fun hall => h0 ((pending_eq_zero_iff _ _ _).mpr hall)
  push_neg at hnall
  obtain ⟨u, hu1, hu2⟩ := hnall
  exact ⟨u, (edgeRel_iff_mem_raw g hWF.1 u v).mpr hu1, hu2⟩

theorem kahnLoop_out (g : Graph) (hWF : WF g) : ∀ (fuel : Nat) (indeg : PyVal → Int)
    (queue sorted_nodes : List PyVal),
    KahnInv g indeg queue sorted_nodes →
    g.length = fuel + sorted_nodes.length →
    KahnOut g (kahnLoop g fuel indeg queue sorted_nodes) := by
  intro fuel
  induction fuel with
  | zero =>
    intro indeg queue sorted_nodes hInv hlen
    cases queue with
    | nil => simpa [kahnLoop] using kahnOut_of_empty g hWF indeg sorted_nodes hInv
    | cons node rest =>
      exfalso
      obtain ⟨hnodeg, hnodes, _⟩ := (hInv.queue_mem node).mp (List.mem_cons_self _ _)
      have hglen : (get_nodes g).length = g.length := by
        simp [get_nodes]
      have hall := nodup_subset_length_eq sorted_nodes (get_nodes g)
        hInv.sorted_nodup hWF.1 hInv.sorted_sub (by omega)
      exact hnodes (hall node hnodeg)
  | succ f ih =>
    intro indeg queue sorted_nodes hInv hlen
    cases queue with
    | nil => simpa [kahnLoop] using kahnOut_of_empty g hWF indeg sorted_nodes hInv
    | cons node rest =>
      have hstep := kahnInv_step g hWF indeg rest sorted_nodes node hInv
      have hlen' : g.length = f + (sorted_nodes ++ [node]).length := by
        simp only [List.length_append, List.length_cons, List.length_nil] at hlen ⊢
        omega
      have hres := ih _ _ _ hstep hlen'
      simpa [kahnLoop] using hres

theorem top_sort_out (g : Graph) (hWF : WF g) : KahnOut g (top_sort g) := by
  unfold top_sort
  exact kahnLoop_out g hWF g.length _ _ _ (kahnInv_init g hWF) (by simp)

/-- In a finite nonempty set where every element has an `r`-predecessor
inside the set, some element lies on an `r`-cycle. -/
theorem cycle_of_pred (r : PyVal → PyVal → Prop) (S : List PyVal) (hne : S ≠ [])
    (h : ∀ v ∈ S, ∃ u ∈ S, r u v) : ∃ n, Relation.TransGen r n n := by
  classical
  have hch : ∀ v, ∃ u, v ∈ S → (u ∈ S ∧ r u v) := by
    intro v
    by_cases hv : v ∈ S
    · obtain ⟨u, hu1, hu2⟩ := h v hv
      exact ⟨u, fun _ => ⟨hu1, hu2⟩⟩
    · exact ⟨v, fun hc => absurd hc hv⟩
  choose f hf using hch
  obtain ⟨v0, hv0⟩ := List.exists_mem_of_ne_nil S hne
  have hseq : ∀ k, f^[k] v0 ∈ S := by
    intro k
    induction k with
    | zero => simpa using hv0
    | succ n ih =>
      rw [Function.iterate_succ_apply']
      exact (hf _ ih).1
  have hstep : ∀ k, r (f^[k + 1] v0) (f^[k] v0) := by
    intro k
    rw [Function.iterate_succ_apply']
    exact (hf _ (hseq k)).2
  have hchain : ∀ d i, Relation.TransGen r (f^[i + d + 1] v0) (f^[i] v0) := by
    intro d
    induction d with
    | zero =>
      intro i
      exact Relation.TransGen.single (hstep i)
    | succ n ih =>
      intro i
      exact Relation.TransGen.head (hstep (i + n + 1)) (ih i)
  have hcard : S.toFinset.card < (Finset.range (S.length + 1)).card := by
    rw [Finset.card_range]
    exact Nat.lt_succ_of_le (List.toFinset_card_le S)
  obtain ⟨i, hi, j, hj, hij, heq⟩ :=
    Finset.exists_ne_map_eq_of_card_lt_of_maps_to hcard
      (fun k _ => List.mem_toFinset.mpr (hseq k))
  rcases Nat.lt_or_ge i j with hlt | hge
  · refine ⟨f^[j] v0, ?_⟩
    have hj' : j = i + (j - i - 1) + 1 := by omega
    have htg : Relation.TransGen r (f^[j] v0) (f^[i] v0) := by
      rw [hj']
      exact hchain (j - i - 1) i
    exact heq ▸ htg
  · have hlt' : j < i := by omega
    refine ⟨f^[i] v0, ?_⟩
    have hi' : i = j + (i - j - 1) + 1 := by omega
    have htg : Relation.TransGen r (f^[i] v0) (f^[j] v0) := by
      rw [hi']
      exact hchain (i - j - 1) j
    exact heq ▸ htg

theorem sublist_pair_indexOf (l : List PyVal) (hl : l.Nodup) (a b : PyVal)
    (h : List.Sublist [a, b] l) : l.indexOf a < l.indexOf b := by
  induction l with
  | nil => simp at h
  | cons x xs ih =>
    obtain ⟨hx, hxs⟩ := List.nodup_cons.mp hl
    cases h with
    | cons _ h' =>
      have ha : a ∈ xs := h'.subset (by simp)
      have hb : b ∈ xs := h'.subset (by simp)
      have hax : a ≠ x := fun he => hx (he ▸ ha)
      have hbx : b ≠ x := fun he => hx (he ▸ hb)
      rw [List.indexOf_cons_ne _ (fun he => hax he.symm),
        List.indexOf_cons_ne _ (fun he => hbx he.symm)]
      exact Nat.succ_lt_succ (ih hxs h')
    | cons₂ _ h' =>
      have hb : b ∈ xs := h'.subset (by simp)
      have hbx : b ≠ a := fun he => hx (he ▸ hb)
      rw [List.indexOf_cons_self, List.indexOf_cons_ne _ (fun he => hbx he.symm)]
      exact Nat.succ_pos _

/-- A rank function that strictly increases along edges certifies
acyclicity. -/
theorem acyclic_of_rank (g : Graph) (rank : PyVal → Nat)
    (h : ∀ u v, EdgeRel g u v → rank u < rank v) : Acyclic g := by
  intro n hn
  have hmono : ∀ a b, Relation.TransGen (EdgeRel g) a b → rank a < rank b := by
    intro a b htg
    induction htg with
    | single h1 => exact h _ _ h1
    | tail _ h2 ih => exact lt_trans ih (h _ _ h2)
  exact lt_irrefl _ (hmono n n hn)

/-! ## Claim C5: topological validity of `top_sort` on acyclic graphs -/

/-- C5: on every well-formed acyclic graph, `top_sort` returns every
node exactly once (duplicate-free, and containing exactly the nodes of
`get_nodes`), and for every edge `(u, v)` the source `u` appears
strictly before the target `v` (the pair is a sublist of the output). -/
theorem top_sort_correct (g : Graph) (hWF : WF g) (hA : Acyclic g) :
    (top_sort g).Nodup ∧ (∀ v, v ∈ top_sort g ↔ v ∈ get_nodes g) ∧
      (∀ u v, EdgeRel g u v → List.Sublist [u, v] (top_sort g)) := by
  obtain ⟨hnd, hsub, hord, hmiss⟩ := top_sort_out g hWF
  have hall : ∀ v ∈ get_nodes g, v ∈ top_sort g := by
    by_contra hcon
    push_neg at hcon
    obtain ⟨v0, hv0n, hv0⟩ := hcon
    have hS0 : v0 ∈ (get_nodes g).filter (fun v => !decide (v ∈ top_sort g)) :=
      List.mem_filter.mpr ⟨hv0n, by simp [hv0]⟩
    have hpred : ∀ v ∈ (get_nodes g).filter (fun v => !decide (v ∈ top_sort g)),
        ∃ u ∈ (get_nodes g).filter (fun v => !decide (v ∈ top_sort g)),
          EdgeRel g u v := by
      intro v hv
      obtain ⟨hv1, hv2⟩ := List.mem_filter.mp hv
      have hv2' : v ∉ top_sort g := by simpa using hv2
      obtain ⟨u, hu1, hu2⟩ := hmiss v hv1 hv2'
      exact ⟨u, List.mem_filter.mpr ⟨edge_source_mem g u v hu1, by simp [hu2]⟩, hu1⟩
    obtain ⟨n, hn⟩ := cycle_of_pred (EdgeRel g)
      ((get_nodes g).filter (fun v => !decide (v ∈ top_sort g)))
      (List.ne_nil_of_mem hS0) hpred
    exact hA n hn
  refine ⟨hnd, fun v => ⟨hsub v, hall v⟩, fun u v huv =>
    hord u v huv (hall v (edge_target_mem g u v hWF huv))⟩

/-- Witness for C5: the chain `A → B → C` is well-formed and acyclic,
and its topological sort lists each node once with sources first. -/
theorem top_sort_correct_witness :
    WF gChain ∧ Acyclic gChain ∧
      ((top_sort gChain).Nodup ∧
        (∀ v, v ∈ top_sort gChain ↔ v ∈ get_nodes gChain) ∧
        (∀ u v, EdgeRel gChain u v → List.Sublist [u, v] (top_sort gChain))) := by
  have hacy : Acyclic gChain := by
    apply acyclic_of_rank gChain
      (fun v => if v = .str "A" then 0 else if v = .str "B" then 1 else 2)
    intro u v huv
    have hu : u = PyVal.str "A" ∨ u = PyVal.str "B" ∨ u = PyVal.str "C" := by
      have hm := edge_source_mem gChain u v huv
      simpa [gChain, get_nodes] using hm
    have hv : v = PyVal.str "A" ∨ v = PyVal.str "B" ∨ v = PyVal.str "C" := by
      have hm := edge_target_mem gChain u v (by decide) huv
      simpa [gChain, get_nodes] using hm
    rcases hu with h | h | h <;> rcases hv with h' | h' | h' <;> subst h <;> subst h' <;>
      revert huv <;> decide
  exact ⟨by decide, hacy, top_sort_correct gChain (by decide) hacy⟩

/-! ## Claim C6: a cycle leaves `top_sort` short -/

/-- C6: on every well-formed graph containing a directed cycle, the list
`top_sort` returns is strictly shorter than `get_nodes` — the nodes of
the cycle are never enqueued. -/
theorem top_sort_shorter_of_cycle (g : Graph) (hWF : WF g)
    (hC : ∃ n, Relation.TransGen (EdgeRel g) n n) :
    (top_sort g).length < (get_nodes g).length := by
  obtain ⟨hnd, hsub, hord, hmiss⟩ := top_sort_out g hWF
  have hmissing : ∃ v, v ∈ get_nodes g ∧ v ∉ top_sort g := by
    by_contra hcon
    push_neg at hcon
    have hall : ∀ v ∈ get_nodes g, v ∈ top_sort g := hcon
    obtain ⟨n, hn⟩ := hC
    have hidx : ∀ a b, Relation.TransGen (EdgeRel g) a b →
        (top_sort g).indexOf a < (top_sort g).indexOf b := by
      intro a b htg
      induction htg with
      | single h1 =>
        exact sublist_pair_indexOf _ hnd _ _
          (hord _ _ h1 (hall _ (edge_target_mem g _ _ hWF h1)))
      | tail _ h2 ih =>
        exact lt_trans ih (sublist_pair_indexOf _ hnd _ _
          (hord _ _ h2 (hall _ (edge_target_mem g _ _ hWF h2))))
    exact lt_irrefl _ (hidx n n hn)
  obtain ⟨v, hvn, hv⟩ := hmissing
  have hsubF : (top_sort g).toFinset ⊆ (get_nodes g).toFinset := by
    intro x hx
    exact List.mem_toFinset.mpr (hsub x (List.mem_toFinset.mp hx))
  have hss : (top_sort g).toFinset ⊂ (get_nodes g).toFinset := by
    refine ⟨hsubF, fun hsup => hv ?_⟩
    exact List.mem_toFinset.mp (hsup (List.mem_toFinset.mpr hvn))
  calc (top_sort g).length
      = (top_sort g).toFinset.card := (List.toFinset_card_of_nodup hnd).symm
    _ < (get_nodes g).toFinset.card := Finset.card_lt_card hss
    _ = (get_nodes g).length := List.toFinset_card_of_nodup hWF.1

/-- Witness for C6: the two-cycle `A → B → A` (buildable through the
plain store) has an empty topological sort against two nodes. -/
theorem top_sort_shorter_of_cycle_witness :
    WF gCycle ∧ (top_sort gCycle).length < (get_nodes gCycle).length := by
  have hc : ∃ n, Relation.TransGen (EdgeRel gCycle) n n := by
    refine ⟨.str "A", Relation.TransGen.head (b := .str "B") ?_
      (Relation.TransGen.single ?_)⟩
    · decide
    · decide
  exact ⟨by decide, top_sort_shorter_of_cycle gCycle (by decide) hc⟩

end StudentCode
